import Mathlib

/-!
Verification of the chord tokenization / transposition engine of the
obsidian-chord-sheets plugin.

The definitions below are a shallow embedding of:
  * the per-token transposition logic of `transpose` in `src/main.ts`
    (lines 260-282), including the manual slash-chord handling;
  * the custom chord-type registry (`extendChordType`, `customChordTypes`,
    `addCustomChordTypes`).

`transposeTonic` (from `chordsUtils.ts`) and the `tonal` library functions
(`Chord.tokenize`, `ChordType.get`, `ChordType.add`) are not part of the
provided sources; they are modelled from the specification, as marked in
their doc comments.
-/

/-- Transposition direction, `"up" | "down"` in the source. -/
inductive Direction where
  | up : Direction
  | down : Direction
deriving DecidableEq, Repr

/-- Pitch class (chroma) of a bare note letter, `none` for a non-letter. -/
def noteLetterChroma (c : Char) : Option Nat :=
  if c = 'C' then some 0
  else if c = 'D' then some 2
  else if c = 'E' then some 4
  else if c = 'F' then some 5
  else if c = 'G' then some 7
  else if c = 'A' then some 9
  else if c = 'B' then some 11
  else none

/-- Accidental characters: sharp and flat. -/
def isAccidentalChar (c : Char) : Bool := c = '#' || c = 'b'

/-- Pitch class of a spelled tonic (letter plus accidentals), `none` when the
string is not a recognizable tonic. A sharp raises and a flat lowers by one
semitone, modulo 12. -/
def tonicChroma (s : String) : Option Nat :=
  match s.data with
  | [] => none
  | c :: rest =>
    match noteLetterChroma c with
    | none => none
    | some base =>
      if rest.all isAccidentalChar then
        some ((base + (rest.filter (fun a => a = '#')).length
               + 11 * (rest.filter (fun a => a = 'b')).length) % 12)
      else none

/-- For each of the twelve pitch classes in ascending order, the pair of its
canonical sharp-preferring and flat-preferring spellings. -/
def noteSpellings : List (String × String) :=
  [("C", "C"), ("C#", "Db"), ("D", "D"), ("D#", "Eb"), ("E", "E"), ("F", "F"),
   ("F#", "Gb"), ("G", "G"), ("G#", "Ab"), ("A", "A"), ("A#", "Bb"), ("B", "B")]

/-- The twelve canonical spellings that prefer sharps, ascending from C. -/
def sharpNoteNames : List String := noteSpellings.map Prod.fst

/-- The twelve canonical spellings that prefer flats, ascending from C. -/
def flatNoteNames : List String := noteSpellings.map Prod.snd

/-- Modelled from the spec: `transposeTonic` lives in `chordsUtils.ts`, which is
not among the provided sources. Per the spec's transposition algorithm, the
tonic moves by exactly one semitone in the given direction using pitch-class
arithmetic and is re-spelled to the simplest enharmonic form, preferring
sharps going up and flats going down; per the spec's error-handling design, a
string that is not a recognizable tonic is passed through unchanged. -/
def transposeTonic (tonic : String) (direction : Direction) : String :=
  match tonicChroma tonic with
  | none => tonic
  | some pc =>
    match direction with
    | Direction.up => sharpNoteNames.getD ((pc + 1) % 12) tonic
    | Direction.down => flatNoteNames.getD ((pc + 11) % 12) tonic

/-- Modelled from the spec: `Chord.tokenize` of the external tonal library,
as described by the spec's step 1: split the token's raw value into tonic and
quality at the tonic-quality boundary, the first non-tonic character (a tonic
being a note letter A-G followed by sharp/flat accidentals). A string that
does not start with a note letter has an empty tonic and is returned whole as
the quality. -/
def chordTokenize (s : String) : String × String :=
  match s.data with
  | [] => ("", "")
  | c :: rest =>
    if (noteLetterChroma c).isSome then
      (String.mk (c :: rest.takeWhile isAccidentalChar),
       String.mk (rest.dropWhile isAccidentalChar))
    else ("", s)

/-- JavaScript `String.prototype.split` with a single-character separator,
on the underlying character list. -/
def splitChar (sep : Char) : List Char → List (List Char)
  | [] => [[]]
  | c :: rest =>
    match splitChar sep rest with
    | [] => [[]]
    | h :: t => if c = sep then [] :: h :: t else (c :: h) :: t

/-- JavaScript `chordType.split('/')` as used in `transpose`. -/
def jsSplit (s : String) (sep : Char) : List String :=
  (splitChar sep s.data).map String.mk

/-- The per-token body of `transpose` in `src/main.ts` (lines 264-275):
tokenize the chord, transpose the tonic, and, because tonal does not support
slash chords, handle a quality containing `/` manually by splitting it and
transposing the part after the first `/` as a tonic. -/
def transposeChord (value : String) (direction : Direction) : String :=
  let tok := chordTokenize value
  let chordTonic := tok.1
  let chordType := tok.2
  let simplifiedTonic := transposeTonic chordTonic direction
  if chordType.data ≠ [] ∧ '/' ∈ chordType.data then
    let parts := jsSplit chordType '/'
    let slashChordType := parts.headD ""
    let afterSlash := parts.getD 1 ""
    simplifiedTonic ++ slashChordType ++ "/" ++ transposeTonic afterSlash direction
  else
    simplifiedTonic ++ chordType

/-- A chord token as consumed by `transpose`; only its raw text matters here. -/
structure ChordToken where
  value : String
deriving DecidableEq, Repr

/-- One element of the `chordTokenRanges` argument of `transpose`:
a source span plus the chord token found there. -/
structure ChordTokenRange where
  «from» : Nat
  «to» : Nat
  chordToken : ChordToken
deriving DecidableEq, Repr

/-- A CodeMirror `ChangeSpec` as built by `transpose`:
replace `[from, to)` with `insert`. -/
structure ChangeSpec where
  «from» : Nat
  «to» : Nat
  insert : String
deriving DecidableEq, Repr

/-- The edit-batch construction of `transpose` in `src/main.ts`
(lines 260-281): the loop pushes one change per chord token range, pairing
the range's span with the transposed chord string. -/
def transpose (chordTokenRanges : List ChordTokenRange) (direction : Direction) :
    List ChangeSpec :=
  chordTokenRanges.foldl
    (fun changes r =>
      changes ++ [{ «from» := r.«from», «to» := r.«to»,
                    insert := transposeChord r.chordToken.value direction }])
    []

/-! ### Chord type registry (`customChordTypes.ts`) -/

/-- The `CustomChordType` interface: intervals, aliases and display name. -/
structure CustomChordType where
  intervals : List String
  aliases : List String
  name : String
deriving DecidableEq, Repr

/-- A `Partial<CustomChordType>`: every field optional, as passed to
`extendChordType`. -/
structure CustomChordTypePatch where
  intervals : Option (List String) := none
  aliases : Option (List String) := none
  name : Option String := none
deriving DecidableEq, Repr

/-- Modelled from the spec: the base chord-symbol knowledge base queried by
`ChordType.get` of the external tonal library — a lookup from a type name (or
alias) to its chord type, `none` standing for tonal's empty ChordType. -/
def BaseKB : Type := String → Option CustomChordType

/-- `extendChordType` of `customChordTypes.ts` (lines 20-31): look the base
type up; if it is empty, throw a configuration error naming the missing type;
otherwise merge, with the extension's fields overriding the base's except for
the alias list, which is the base's aliases followed by the extension's. -/
def extendChordType (kb : BaseKB) (type : String)
    (chordTypeExtension : CustomChordTypePatch) : Except String CustomChordType :=
  match kb type with
  | none =>
    Except.error ("Error while extending chord type: chord type " ++ type
      ++ " not found.")
  | some originalChordType =>
    let mergedAliases := originalChordType.aliases
      ++ chordTypeExtension.aliases.getD []
    Except.ok
      { intervals := chordTypeExtension.intervals.getD originalChordType.intervals,
        aliases := mergedAliases,
        name := chordTypeExtension.name.getD originalChordType.name }

/-- The module-level `customChordTypes` array (lines 9-18): three extensions
of base types plus one brand-new type. Each `extendChordType` call may throw,
aborting the construction of the array (and hence module initialization), so
the array is built in `Except`. -/
def customChordTypes (kb : BaseKB) : Except String (List CustomChordType) :=
  match extendChordType kb "7#5" { aliases := some ["7(5+)", "7(+5)", "7+5"] } with
  | Except.error e => Except.error e
  | Except.ok t1 =>
    match extendChordType kb "M7" { aliases := some ["7M"] } with
    | Except.error e => Except.error e
    | Except.ok t2 =>
      match extendChordType kb "m9" { aliases := some ["m7(9)"] } with
      | Except.error e => Except.error e
      | Except.ok t3 =>
        Except.ok [t1, t2, t3,
          { name := "suspended four sharp five",
            intervals := ["1P", "4P", "5A"],
            aliases := ["sus4#5", "4(5+)"] }]

/-- Modelled from the spec: the process-wide chord-symbol table used by all
downstream lookups, keyed by type name or alias. -/
def ChordTable : Type := String → Option CustomChordType

/-- Modelled from the spec: `ChordType.add(intervals, aliases, name)` of the
external tonal library registers the chord type into the global table under
its name and each of its aliases. -/
def chordTypeAdd (table : ChordTable) (intervals : List String)
    (aliases : List String) (name : String) : ChordTable :=
  fun key =>
    if key = name ∨ key ∈ aliases then
      some { intervals := intervals, aliases := aliases, name := name }
    else table key

/-- `addCustomChordTypes` of `customChordTypes.ts` (lines 33-37): register
each entry of the custom chord type list into the global table. The list and
the table state are explicit parameters of the embedding. -/
def addCustomChordTypes (types : List CustomChordType) (table : ChordTable) :
    ChordTable :=
  types.foldl (fun t c => chordTypeAdd t c.intervals c.aliases c.name) table

/-- A key is covered by a custom chord type when it is its name or one of its
aliases. -/
def covers (c : CustomChordType) (key : String) : Prop :=
  key = c.name ∨ key ∈ c.aliases

instance (c : CustomChordType) (key : String) : Decidable (covers c key) := by
  unfold covers
  infer_instance


/-- An example base knowledge base holding the three base types that the
preconfigured extensions refer to; it instantiates the registry theorems at a
concrete input. -/
def demoBaseKB : BaseKB := fun s =>
  if s = "7#5" then
    some { intervals := ["1P", "3M", "5A", "7m"],
           aliases := ["7#5", "7+", "maj7#5"], name := "augmented seventh" }
  else if s = "M7" then
    some { intervals := ["1P", "3M", "5P", "7M"],
           aliases := ["maj7", "M7"], name := "major seventh" }
  else if s = "m9" then
    some { intervals := ["1P", "3m", "5P", "7m", "9M"],
           aliases := ["m9", "-9"], name := "minor ninth" }
  else none

/-! ### Helper lemmas about the JavaScript split -/

theorem splitChar_ne_nil (sep : Char) (l : List Char) : splitChar sep l ≠ [] := by
  induction l with
  | nil => simp [splitChar]
  | cons c rest ih =>
    simp only [splitChar]
    split
    · simp
    · split <;> simp

theorem splitChar_no_sep (sep : Char) (l : List Char) (h : sep ∉ l) :
    splitChar sep l = [l] := by
  induction l with
  | nil => rfl
  | cons c rest ih =>
    have hc : ¬ c = sep := fun e => h (e ▸ List.mem_cons_self c rest)
    have hr : sep ∉ rest := fun m => h (List.mem_cons_of_mem c m)
    simp [splitChar, ih hr, hc]

theorem splitChar_append (sep : Char) (a b : List Char) (h : sep ∉ a) :
    splitChar sep (a ++ sep :: b) = a :: splitChar sep b := by
  induction a with
  | nil =>
    cases hb : splitChar sep b with
    | nil => exact absurd hb (splitChar_ne_nil sep b)
    | cons hd tl => simp [splitChar, hb]
  | cons c rest ih =>
    have hc : ¬ c = sep := fun e => h (e ▸ List.mem_cons_self c rest)
    have hr : sep ∉ rest := fun m => h (List.mem_cons_of_mem c m)
    simp [splitChar, ih hr, hc]

theorem data_slash_concat (qpart bass : String) :
    (qpart ++ "/" ++ bass).data = qpart.data ++ '/' :: bass.data := by
  simp [String.data_append]

theorem jsSplit_slash (qpart bass : String) (hq : '/' ∉ qpart.data)
    (hb : '/' ∉ bass.data) :
    jsSplit (qpart ++ "/" ++ bass) '/' = [qpart, bass] := by
  unfold jsSplit
  rw [data_slash_concat, splitChar_append _ _ _ hq, splitChar_no_sep _ _ hb]
  rfl

/-- Characterization of `transposeChord` on a single-slash quality: the tonic
and the bass note are transposed independently and reassembled around the
quality part. -/
theorem transposeChord_slash_eq (value : String) (direction : Direction)
    (tonic qpart bass : String)
    (htok : chordTokenize value = (tonic, qpart ++ "/" ++ bass))
    (hq : '/' ∉ qpart.data) (hb : '/' ∉ bass.data) :
    transposeChord value direction =
      transposeTonic tonic direction ++ qpart ++ "/" ++
        transposeTonic bass direction := by
  have hcond : ((qpart ++ "/" ++ bass) : String).data ≠ [] ∧
      '/' ∈ ((qpart ++ "/" ++ bass) : String).data := by
    rw [data_slash_concat]
    constructor
    · simp
    · simp
  simp only [transposeChord, htok]
  rw [if_pos hcond, jsSplit_slash qpart bass hq hb]
  simp [List.getD]

/-- Characterization of `transposeChord` on a slash-free quality: the quality
is carried over unchanged. -/
theorem transposeChord_no_slash_eq (value : String) (direction : Direction)
    (tonic qual : String)
    (htok : chordTokenize value = (tonic, qual)) (h : '/' ∉ qual.data) :
    transposeChord value direction = transposeTonic tonic direction ++ qual := by
  simp only [transposeChord, htok]
  rw [if_neg]
  intro hcontra
  exact h hcontra.2

/-- The split of a quality with two or more slashes: only the first two parts
are reachable by the destructuring in `transpose`. -/
theorem jsSplit_multi_slash (p0 p1 r : String) (h0 : '/' ∉ p0.data)
    (h1 : '/' ∉ p1.data) :
    jsSplit (p0 ++ "/" ++ p1 ++ "/" ++ r) '/' =
      p0 :: p1 :: (splitChar '/' r.data).map String.mk := by
  unfold jsSplit
  have hdata : ((p0 ++ "/" ++ p1 ++ "/" ++ r) : String).data =
      p0.data ++ '/' :: (p1.data ++ '/' :: r.data) := by
    simp [String.data_append]
  rw [hdata, splitChar_append _ _ _ h0, splitChar_append _ _ _ h1]
  rfl

/-- Characterization of `transposeChord` on a quality with two or more
slashes: everything from the second slash on is dropped. -/
theorem transposeChord_multi_slash_eq (value : String) (direction : Direction)
    (tonic p0 p1 r : String)
    (htok : chordTokenize value = (tonic, p0 ++ "/" ++ p1 ++ "/" ++ r))
    (h0 : '/' ∉ p0.data) (h1 : '/' ∉ p1.data) :
    transposeChord value direction =
      transposeTonic tonic direction ++ p0 ++ "/" ++
        transposeTonic p1 direction := by
  have hdata : ((p0 ++ "/" ++ p1 ++ "/" ++ r) : String).data =
      p0.data ++ '/' :: (p1.data ++ '/' :: r.data) := by
    simp [String.data_append]
  have hcond : ((p0 ++ "/" ++ p1 ++ "/" ++ r) : String).data ≠ [] ∧
      '/' ∈ ((p0 ++ "/" ++ p1 ++ "/" ++ r) : String).data := by
    rw [hdata]
    constructor
    · simp
    · simp
  simp only [transposeChord, htok]
  rw [if_pos hcond, jsSplit_multi_slash p0 p1 r h0 h1]
  simp [List.getD]

/-- C1: for a chord token whose quality contains a literal `/`, `transpose`
splits the quality into a chord-quality part and a bass-note part, transposes
the main tonic and the bass note independently by one semitone, and returns
`newTonic ++ chordQualityPart ++ "/" ++ newBassTonic`; in particular
transposing "G/B" up shifts both G and B up one semitone, giving "G#/C". -/
theorem transpose_slash_chord :
    (∀ (value : String) (direction : Direction) (tonic qpart bass : String),
        chordTokenize value = (tonic, qpart ++ "/" ++ bass) →
        '/' ∉ qpart.data → '/' ∉ bass.data →
        transposeChord value direction =
          transposeTonic tonic direction ++ qpart ++ "/" ++
            transposeTonic bass direction) ∧
    transposeChord "G/B" Direction.up = "G#/C" :=
  ⟨transposeChord_slash_eq, by decide⟩

/-- C3: for a chord token whose quality contains no `/`, `transpose` returns
the transposed tonic followed by the unchanged (possibly empty) quality; in
particular "C" up gives "C#" and "C#" down gives "C". -/
theorem transpose_no_slash_chord :
    (∀ (value : String) (direction : Direction) (tonic qual : String),
        chordTokenize value = (tonic, qual) → '/' ∉ qual.data →
        transposeChord value direction = transposeTonic tonic direction ++ qual) ∧
    transposeChord "C" Direction.up = "C#" ∧
    transposeChord "C#" Direction.down = "C" :=
  ⟨transposeChord_no_slash_eq, by decide, by decide⟩

/-- C10: for a chord token whose quality contains two or more `/` characters,
`transpose` silently discards all text from the second `/` onward: only the
first two parts of the split are used, so the result is
`newTonic ++ firstQualityPart ++ "/" ++ transposedSecondPart`; in particular
"C7/G/B" up gives "C#7/G#", dropping "/B". -/
theorem transpose_multi_slash_drops_tail :
    (∀ (value : String) (direction : Direction) (tonic p0 p1 r : String),
        chordTokenize value = (tonic, p0 ++ "/" ++ p1 ++ "/" ++ r) →
        '/' ∉ p0.data → '/' ∉ p1.data →
        transposeChord value direction =
          transposeTonic tonic direction ++ p0 ++ "/" ++
            transposeTonic p1 direction) ∧
    transposeChord "C7/G/B" Direction.up = "C#7/G#" :=
  ⟨transposeChord_multi_slash_eq, by decide⟩

/-- An unrecognizable tonic is passed through `transposeTonic` unchanged. -/
theorem transposeTonic_unrecognized (bass : String) (direction : Direction)
    (h : tonicChroma bass = none) : transposeTonic bass direction = bass := by
  simp [transposeTonic, h]

/-- A push-loop over a list is the map of its body. -/
theorem foldl_push_eq_map {α β : Type} (l : List α) (f : α → β) (acc : List β) :
    l.foldl (fun changes r => changes ++ [f r]) acc = acc ++ l.map f := by
  induction l generalizing acc with
  | nil => simp
  | cons r rest ih => simp [List.foldl_cons, ih]

/-- The edit batch is the pointwise transposition of the token ranges. -/
theorem transpose_eq_map (ranges : List ChordTokenRange) (direction : Direction) :
    transpose ranges direction = ranges.map (fun r =>
      { «from» := r.«from», «to» := r.«to»,
        insert := transposeChord r.chordToken.value direction }) := by
  unfold transpose
  rw [foldl_push_eq_map]
  simp

/-- C2 (amended): transposing up one semitone and then down one semitone (and
vice versa) preserves the tonic's pitch class for every tonic in the twelve
pitch classes; down-then-up even restores the identical spelling, while
up-then-down may respell a sharp tonic as its flat equivalent, because the
downward direction prefers flat spellings. -/
theorem transpose_roundtrip_pitch_class (t : String) (h : t ∈ sharpNoteNames) :
    tonicChroma (transposeChord (transposeChord t Direction.up) Direction.down)
        = tonicChroma t ∧
    tonicChroma (transposeChord (transposeChord t Direction.down) Direction.up)
        = tonicChroma t ∧
    transposeChord (transposeChord t Direction.down) Direction.up = t := by
  fin_cases h <;> exact ⟨by decide, by decide, by decide⟩

/-- C2 witness: the round-trip properties hold at the concrete tonic "C". -/
theorem transpose_roundtrip_pitch_class_witness :
    tonicChroma (transposeChord (transposeChord "C" Direction.up) Direction.down)
        = tonicChroma "C" ∧
    tonicChroma (transposeChord (transposeChord "C" Direction.down) Direction.up)
        = tonicChroma "C" ∧
    transposeChord (transposeChord "C" Direction.down) Direction.up = "C" :=
  transpose_roundtrip_pitch_class "C" (by decide)

/-- C2 counterexample: "C#" is one of the twelve canonical tonics, yet
transposing it up and then down returns "Db" — the pitch class is preserved
but the spelling changes even though the original spelling was canonical. -/
theorem transpose_roundtrip_spelling_counterexample :
    "C#" ∈ sharpNoteNames ∧
    transposeChord (transposeChord "C#" Direction.up) Direction.down = "Db" ∧
    transposeChord (transposeChord "C#" Direction.up) Direction.down ≠ "C#" :=
  ⟨by decide, by decide, by decide⟩

/-- C7: when the bass-note part after `/` of a slash chord is not a
recognizable tonic, its transposition passes it through verbatim instead of
failing, so the transposed chord keeps the malformed bass unchanged; and a
malformed token never aborts the other tokens of the block: the edit batch
always contains one edit per input token. -/
theorem transpose_malformed_bass :
    (∀ (bass : String) (direction : Direction), tonicChroma bass = none →
        transposeTonic bass direction = bass) ∧
    (∀ (value : String) (direction : Direction) (tonic qpart bass : String),
        chordTokenize value = (tonic, qpart ++ "/" ++ bass) →
        '/' ∉ qpart.data → '/' ∉ bass.data → tonicChroma bass = none →
        transposeChord value direction =
          transposeTonic tonic direction ++ qpart ++ "/" ++ bass) ∧
    (∀ (ranges : List ChordTokenRange) (direction : Direction),
        (transpose ranges direction).length = ranges.length) := by
  refine ⟨transposeTonic_unrecognized, ?slash, ?len⟩
  · intro value direction tonic qpart bass htok hq hb hbad
    rw [transposeChord_slash_eq value direction tonic qpart bass htok hq hb,
      transposeTonic_unrecognized bass direction hbad]
  · intro ranges direction
    rw [transpose_eq_map]
    simp

/-- C4: the edit batch built for a transposition of N token ranges contains
exactly N edits, one per token, pairing each token's source span with its
transposed string in input order with no reordering or merging; and when the
input spans are ordered and disjoint, the resulting edits are sorted by
ascending start offset and non-overlapping. -/
theorem transpose_edit_batch :
    (∀ (ranges : List ChordTokenRange) (direction : Direction),
        (transpose ranges direction).length = ranges.length) ∧
    (∀ (ranges : List ChordTokenRange) (direction : Direction) (i : Nat)
        (r : ChordTokenRange), ranges[i]? = some r →
        (transpose ranges direction)[i]? =
          some { «from» := r.«from», «to» := r.«to»,
                 insert := transposeChord r.chordToken.value direction }) ∧
    (∀ (ranges : List ChordTokenRange) (direction : Direction),
        (∀ r ∈ ranges, r.«from» ≤ r.«to») →
        ranges.Pairwise (fun a b => a.«to» ≤ b.«from») →
        (transpose ranges direction).Pairwise
          (fun a b => a.«from» ≤ b.«from» ∧ a.«to» ≤ b.«from»)) := by
  refine ⟨?len, ?pair, ?sorted⟩
  · intro ranges direction
    rw [transpose_eq_map]
    simp
  · intro ranges direction i r h
    rw [transpose_eq_map, List.getElem?_map, h]
    rfl
  · intro ranges direction hwf hp
    rw [transpose_eq_map, List.pairwise_map]
    exact List.Pairwise.imp_of_mem
      (fun ha hb hab => ⟨le_trans (hwf _ ha) hab, hab⟩) hp

/-! ### Registry lemmas -/

theorem addCustomChordTypes_not_covered (ts : List CustomChordType)
    (table : ChordTable) (k : String) (h : ∀ c ∈ ts, ¬ covers c k) :
    addCustomChordTypes ts table k = table k := by
  induction ts generalizing table with
  | nil => rfl
  | cons c rest ih =>
    have hc : ¬ (k = c.name ∨ k ∈ c.aliases) := h c (List.mem_cons_self c rest)
    have hrest : ∀ c' ∈ rest, ¬ covers c' k :=
      fun c' m => h c' (List.mem_cons_of_mem c m)
    show addCustomChordTypes rest
      (chordTypeAdd table c.intervals c.aliases c.name) k = table k
    rw [ih _ hrest]
    simp only [chordTypeAdd]
    rw [if_neg hc]

theorem addCustomChordTypes_covered_agree (ts : List CustomChordType)
    (t1 t2 : ChordTable) (k : String) (h : ∃ c ∈ ts, covers c k) :
    addCustomChordTypes ts t1 k = addCustomChordTypes ts t2 k := by
  induction ts generalizing t1 t2 with
  | nil => simp at h
  | cons c rest ih =>
    by_cases hr : ∃ c' ∈ rest, covers c' k
    · exact ih _ _ hr
    · rcases h with ⟨c0, hc0, hcov⟩
      have hcovc : covers c k := by
        rcases List.mem_cons.mp hc0 with rfl | hmem
        · exact hcov
        · exact absurd ⟨c0, hmem, hcov⟩ hr
      have hrest : ∀ c' ∈ rest, ¬ covers c' k := fun c' m hcv => hr ⟨c', m, hcv⟩
      show addCustomChordTypes rest
          (chordTypeAdd t1 c.intervals c.aliases c.name) k =
        addCustomChordTypes rest (chordTypeAdd t2 c.intervals c.aliases c.name) k
      have hcovc' : k = c.name ∨ k ∈ c.aliases := hcovc
      rw [addCustomChordTypes_not_covered _ _ _ hrest,
        addCustomChordTypes_not_covered _ _ _ hrest]
      simp only [chordTypeAdd]
      rw [if_pos hcovc', if_pos hcovc']

theorem addCustomChordTypes_covered_mem (ts : List CustomChordType)
    (table : ChordTable) (k : String) (h : ∃ c ∈ ts, covers c k) :
    ∃ c', c' ∈ ts ∧ addCustomChordTypes ts table k = some c' := by
  induction ts generalizing table with
  | nil => simp at h
  | cons c rest ih =>
    by_cases hr : ∃ c' ∈ rest, covers c' k
    · rcases ih (chordTypeAdd table c.intervals c.aliases c.name) hr with ⟨c', hm, he⟩
      exact ⟨c', List.mem_cons_of_mem c hm, he⟩
    · rcases h with ⟨c0, hc0, hcov⟩
      have hcovc : covers c k := by
        rcases List.mem_cons.mp hc0 with rfl | hmem
        · exact hcov
        · exact absurd ⟨c0, hmem, hcov⟩ hr
      have hrest : ∀ c' ∈ rest, ¬ covers c' k := fun c' m hcv => hr ⟨c', m, hcv⟩
      refine ⟨c, List.mem_cons_self c rest, ?_⟩
      show addCustomChordTypes rest
        (chordTypeAdd table c.intervals c.aliases c.name) k = some c
      have hcovc' : k = c.name ∨ k ∈ c.aliases := hcovc
      rw [addCustomChordTypes_not_covered _ _ _ hrest]
      simp only [chordTypeAdd]
      rw [if_pos hcovc']

/-- C8: `addCustomChordTypes` is an idempotent process-wide side effect:
running the registration a second time leaves the global chord-symbol table
exactly as after the first run; and each run registers every entry of the
custom chord type list, so any entry's name resolves in the table (to that
entry, or to a later entry sharing the key). -/
theorem addCustomChordTypes_idempotent :
    (∀ (types : List CustomChordType) (table : ChordTable),
        addCustomChordTypes types (addCustomChordTypes types table) =
          addCustomChordTypes types table) ∧
    (∀ (types : List CustomChordType) (table : ChordTable)
        (c : CustomChordType), c ∈ types →
        ∃ c', c' ∈ types ∧ addCustomChordTypes types table c.name = some c') := by
  constructor
  · intro types table
    funext k
    by_cases h : ∃ c ∈ types, covers c k
    · exact addCustomChordTypes_covered_agree types _ table k h
    · have h' : ∀ c ∈ types, ¬ covers c k := fun c m hc => h ⟨c, m, hc⟩
      rw [addCustomChordTypes_not_covered _ _ _ h']
  · intro types table c hc
    exact addCustomChordTypes_covered_mem types table c.name ⟨c, hc, Or.inl rfl⟩

/-- C5: extending a base type name that is not in the base knowledge base
fails with a configuration error that names the missing type; since the
custom chord type array is built at module initialization, the error aborts
the construction, so no partial registration can occur. -/
theorem extendChordType_missing_base :
    (∀ (kb : BaseKB) (type : String) (ext : CustomChordTypePatch),
        kb type = none →
        extendChordType kb type ext = Except.error
          ("Error while extending chord type: chord type " ++ type
            ++ " not found.")) ∧
    (∀ kb : BaseKB, kb "7#5" = none →
        customChordTypes kb = Except.error
          "Error while extending chord type: chord type 7#5 not found.") := by
  constructor
  · intro kb type ext h
    simp [extendChordType, h]
  · intro kb h
    simp only [customChordTypes, extendChordType, h]
    rfl

/-- C6: extending an existing base type merges the extension over the base:
the resulting alias list is the base's aliases followed by the extension's
(base first, order preserved), every field present in the extension overrides
the base's field, and every absent field is inherited; in particular
extending "M7" with alias "7M" yields an alias list containing all of M7's
aliases plus "7M". -/
theorem extendChordType_merge :
    (∀ (kb : BaseKB) (type : String) (ext : CustomChordTypePatch)
        (base : CustomChordType), kb type = some base →
        ∃ merged, extendChordType kb type ext = Except.ok merged ∧
          merged.aliases = base.aliases ++ ext.aliases.getD [] ∧
          (∀ v, ext.name = some v → merged.name = v) ∧
          (ext.name = none → merged.name = base.name) ∧
          (∀ v, ext.intervals = some v → merged.intervals = v) ∧
          (ext.intervals = none → merged.intervals = base.intervals)) ∧
    (∀ (kb : BaseKB) (base : CustomChordType), kb "M7" = some base →
        ∃ merged,
          extendChordType kb "M7" { aliases := some ["7M"] } = Except.ok merged ∧
          (∀ a ∈ base.aliases, a ∈ merged.aliases) ∧ "7M" ∈ merged.aliases) := by
  constructor
  · intro kb type ext base h
    refine ⟨{ intervals := ext.intervals.getD base.intervals,
              aliases := base.aliases ++ ext.aliases.getD [],
              name := ext.name.getD base.name }, ?_, rfl, ?_, ?_, ?_, ?_⟩
    · simp [extendChordType, h]
    · intro v hv
      simp [hv]
    · intro hv
      simp [hv]
    · intro v hv
      simp [hv]
    · intro hv
      simp [hv]
  · intro kb base h
    refine ⟨{ intervals := base.intervals, aliases := base.aliases ++ ["7M"],
              name := base.name }, ?_, ?_, ?_⟩
    · simp [extendChordType, h]
    · intro a ha
      exact List.mem_append_left _ ha
    · exact List.mem_append_right _ (by simp)

/-- C9: given a base knowledge base containing "7#5", "M7" and "m9", the
preconfigured custom chord-type set consists of exactly four entries: the
"7#5" extension adding aliases "7(5+)", "7(+5)", "7+5"; the "M7" extension
adding alias "7M"; the "m9" extension adding alias "m7(9)"; and the new type
"suspended four sharp five" with intervals root, perfect fourth and
augmented fifth and aliases "sus4#5" and "4(5+)". -/
theorem customChordTypes_preconfigured (kb : BaseKB) (b1 b2 b3 : CustomChordType)
    (h1 : kb "7#5" = some b1) (h2 : kb "M7" = some b2) (h3 : kb "m9" = some b3) :
    customChordTypes kb = Except.ok
      [{ intervals := b1.intervals,
         aliases := b1.aliases ++ ["7(5+)", "7(+5)", "7+5"], name := b1.name },
       { intervals := b2.intervals,
         aliases := b2.aliases ++ ["7M"], name := b2.name },
       { intervals := b3.intervals,
         aliases := b3.aliases ++ ["m7(9)"], name := b3.name },
       { intervals := ["1P", "4P", "5A"], aliases := ["sus4#5", "4(5+)"],
         name := "suspended four sharp five" }] := by
  simp [customChordTypes, extendChordType, h1, h2, h3]

/-- C9 witness: at the example knowledge base the preconfigured set evaluates
to exactly the four stated entries. -/
theorem customChordTypes_preconfigured_witness :
    customChordTypes demoBaseKB = Except.ok
      [{ intervals := ["1P", "3M", "5A", "7m"],
         aliases := ["7#5", "7+", "maj7#5", "7(5+)", "7(+5)", "7+5"],
         name := "augmented seventh" },
       { intervals := ["1P", "3M", "5P", "7M"],
         aliases := ["maj7", "M7", "7M"], name := "major seventh" },
       { intervals := ["1P", "3m", "5P", "7m", "9M"],
         aliases := ["m9", "-9", "m7(9)"], name := "minor ninth" },
       { intervals := ["1P", "4P", "5A"], aliases := ["sus4#5", "4(5+)"],
         name := "suspended four sharp five" }] :=
  customChordTypes_preconfigured demoBaseKB _ _ _ rfl rfl rfl
